import Mathlib

/-!
Verification of the motive2d segmentation / merge pipeline.

This file gives a shallow embedding of the coordination logic of the
repository (`run_yolo_docker.py`, `combine_coords.py`) and proves the
spec's claims about it.  Python strings are modelled as `List Char`
(for file contents) or `String` (for file names); the filesystem is
modelled as a lookup function; machine integers are `Nat`/`Int`;
`float`-valued metadata handled with exact arithmetic is modelled as `ℚ`.
-/

namespace Motive2d

/-! ### Segment planner (`run_yolo_docker.py`, `compute_segments`)

`per_chunk = max(1, frames // workers + (1 if frames % workers else 0))`,
then a cursor walks from 0 emitting inclusive ranges.  The `while` loop is
embedded with a fuel argument: each iteration advances the cursor by at
least one frame (the chunk size is always ≥ 1), so `fuel = frames` bounds
the iteration count; all theorems are stated at that adequate fuel. -/

def per_chunk (frames workers : Nat) : Nat :=
  max 1 (frames / workers + (if frames % workers ≠ 0 then 1 else 0))

def segmentsLoop (frames chunk : Nat) : Nat → Nat → List (Nat × Nat × Nat)
  | _, 0 => []
  | start, fuel + 1 =>
    if start < frames then
      (start, min (frames - 1) (start + chunk - 1),
        min (frames - 1) (start + chunk - 1) - start + 1) ::
        segmentsLoop frames chunk (min (frames - 1) (start + chunk - 1) + 1) fuel
    else []

def compute_segments (frames workers : Nat) : List (Nat × Nat × Nat) :=
  segmentsLoop frames (per_chunk frames workers) 0 frames

/-! ### Line-oriented merge (`combine_coords.py`)

File contents are modelled as lists of newline-stripped lines, each line a
`List Char`; the filesystem is a lookup from path to optional content.
Python's `str(int)` and `int(str)` are embedded directly
(`pyStrOfInt` / `pyParseInt`). -/

abbrev Line := List Char

def digitsToNat (ds : List Char) : Nat :=
  ds.foldl (fun acc c => 10 * acc + (c.toNat - 48)) 0

def digitChar (d : Nat) : Char :=
  if d = 0 then '0' else if d = 1 then '1' else if d = 2 then '2'
  else if d = 3 then '3' else if d = 4 then '4' else if d = 5 then '5'
  else if d = 6 then '6' else if d = 7 then '7' else if d = 8 then '8' else '9'

/-- Decimal digits of `n`, most significant first.  The first argument is
fuel bounding the recursion depth; `n` itself is always adequate since a
number has at most `n` digits. -/
def natDigits : Nat → Nat → List Char
  | 0, _ => []
  | fuel + 1, n => if n = 0 then [] else natDigits fuel (n / 10) ++ [digitChar (n % 10)]

/-- Python `str` of a non-negative integer. -/
def pyStrOfNat (n : Nat) : List Char :=
  if n = 0 then ['0'] else natDigits n n

/-- Python `str` of an integer. -/
def pyStrOfInt : Int → List Char
  | Int.ofNat m => pyStrOfNat m
  | Int.negSucc m => '-' :: pyStrOfNat (m + 1)

/-- Python `str.strip()`: drop leading and trailing whitespace. -/
def stripChars (cs : List Char) : List Char :=
  ((cs.dropWhile Char.isWhitespace).reverse.dropWhile Char.isWhitespace).reverse

def parseDigits (cs : List Char) : Option Nat :=
  if cs ≠ [] ∧ cs.all Char.isDigit then some (digitsToNat cs) else none

/-- Python `int(str)`: optional surrounding whitespace, optional sign,
then a non-empty run of decimal digits. -/
def pyParseInt (cs : List Char) : Option Int :=
  match stripChars cs with
  | '-' :: rest => (parseDigits rest).map (fun n => -(n : Int))
  | '+' :: rest => (parseDigits rest).map (fun n => (n : Int))
  | t => (parseDigits t).map (fun n => (n : Int))

/-- Python `str.split(sep)` for a one-character separator: split at every
occurrence, keeping empty fields. -/
def splitOnChar (sep : Char) (cs : List Char) : List (List Char) :=
  cs.foldr (fun c acc => if c = sep then [] :: acc else (c :: acc.headI) :: acc.tail) [[]]

/-- Python `str.split('\t')`. -/
def splitTab (cs : List Char) : List (List Char) := splitOnChar '\t' cs

/-- `pathlib.Path(p).name`: the component after the last slash. -/
def baseName (path : String) : String :=
  String.mk ((splitOnChar '/' path.data).getLastD [])

/-- The tail of `re.search(r'segment_(\d+)_(\d+)', ...)` at one candidate
position: a maximal non-empty digit run, an underscore, then a non-empty
digit run (greediness with backtracking collapses to exactly this). -/
def matchDigitsUscoreDigits (cs : List Char) : Option (Nat × Nat) :=
  let d1 := cs.takeWhile Char.isDigit
  let r1 := cs.dropWhile Char.isDigit
  if d1 = [] then none
  else
    match r1 with
    | '_' :: r2 =>
      let d2 := r2.takeWhile Char.isDigit
      if d2 = [] then none else some (digitsToNat d1, digitsToNat d2)
    | _ => none

/-- `re.search`: try the pattern at each position, left to right. -/
def searchSegmentPattern : List Char → Option (Nat × Nat)
  | [] => none
  | c :: rest =>
    if ("segment_".data).isPrefixOf (c :: rest) then
      match matchDigitsUscoreDigits ((c :: rest).drop 8) with
      | some r => some r
      | none => searchSegmentPattern rest
    else searchSegmentPattern rest

/-- `combine_coords.parse_segment_filename` (raising `ValueError` becomes
`none`). -/
def parse_segment_filename (filename : String) : Option (Nat × Nat) :=
  searchSegmentPattern filename.data

/-- Stable insertion into a sorted list: the new element goes before the
first existing element it compares `le` to, so earlier elements stay first
among ties. -/
def insertLE {α : Type} (le : α → α → Bool) (x : α) : List α → List α
  | [] => [x]
  | y :: ys => if le x y then x :: y :: ys else y :: insertLE le x ys

/-- Python's stable `sorted`, embedded as a structurally recursive stable
insertion sort. -/
def sortLE {α : Type} (le : α → α → Bool) : List α → List α
  | [] => []
  | x :: xs => insertLE le x (sortLE le xs)

/-- One iteration of the inner line loop of `combine_coordinate_files`.
State: `(header_written, combined_lines)`. -/
def processLine (start_frame : Nat) (st : Bool × List Line) (line : Line) :
    Bool × List Line :=
  if line = [] then st
  else if line.headI = '#' then
    if st.1 then st else (true, st.2 ++ [line])
  else
    let parts := splitTab line
    if parts.length ≠ 7 then st
    else
      match pyParseInt parts.headI with
      | none => st
      | some n =>
        (st.1, st.2 ++
          [List.intercalate ['\t'] (pyStrOfInt (n + (start_frame : Int)) :: parts.tail)])

/-- One iteration of the outer file loop of `combine_coordinate_files`:
missing files and unparseable names are skipped with a warning. -/
def processFile (fs : String → Option (List Line)) (st : Bool × List Line)
    (file : String) : Bool × List Line :=
  match fs file with
  | none => st
  | some lines =>
    match parse_segment_filename (baseName file) with
    | none => st
    | some se => lines.foldl (processLine se.1) st

def pathLE (a b : String) : Bool := decide (a ≤ b)

/-- The `(header_written, combined_lines)` state after the loops of
`combine_coordinate_files`: files are visited in `sorted(coord_files)`
order. -/
def combine_lines (fs : String → Option (List Line)) (coord_files : List String) :
    Bool × List Line :=
  (sortLE pathLE coord_files).foldl (processFile fs) (false, [])

/-- The content written by `combine_coordinate_files`:
`'\n'.join(combined_lines)`. -/
def combine_coordinate_files (fs : String → Option (List Line))
    (coord_files : List String) : List Char :=
  List.intercalate ['\n'] (combine_lines fs coord_files).2

/-- The output artifact of `combine_coordinate_files` as an optional value:
`none` would mean the output file is not written.  In the source the
`open(output_path, 'w')` / `write` step runs unconditionally after the
loop, so the artifact is always produced. -/
def combine_coordinate_files_run (fs : String → Option (List Line))
    (coord_files : List String) : Option (List Char) :=
  some (combine_coordinate_files fs coord_files)

/-- The lines of `file` that the merge loop actually reads: none when the
file is missing or its name does not parse as a segment range. -/
def fileLines (fs : String → Option (List Line)) (file : String) : List Line :=
  match fs file with
  | none => []
  | some lines =>
    match parse_segment_filename (baseName file) with
    | none => []
    | some _ => lines

/-- The `#`-prefixed (header) lines of a line list. -/
def headerLines (ls : List Line) : List Line :=
  ls.filter (fun l => l.headI == '#')

/-- All lines the merge encounters, in processing order (files sorted by
path). -/
def encounteredLines (fs : String → Option (List Line)) (files : List String) :
    List Line :=
  (sortLE pathLE files).flatMap (fileLines fs)

/-- `out` is an offset-corrected data record originating from one of
`files`: some input file parses to start offset `s`, contains a data line
whose frame field parses to `f`, and `out` is that line with the frame
field rewritten to `f + s`. -/
def IsAdjustedRecord (fs : String → Option (List Line)) (files : List String)
    (out : Line) : Prop :=
  ∃ file s e lines line f,
    file ∈ files ∧ fs file = some lines ∧
    parse_segment_filename (baseName file) = some (s, e) ∧ line ∈ lines ∧
    (splitTab line).length = 7 ∧ pyParseInt (splitTab line).headI = some f ∧
    out = List.intercalate ['\t'] (pyStrOfInt (f + (s : Int)) :: (splitTab line).tail)

/-! ### Structured pose merge (`run_yolo_docker.py`)

Directories are given by their base name; a label directory is `none` when
absent, otherwise a list of `(stem, lines)` pairs for its `*.txt` files.
Python `float` parsing of tokens is an oracle parameter `pyFloat`; a line
any of whose tokens fails to parse is dropped, like the source's
`ValueError` handler. -/

/-- `SEGMENT_DIR_RE.match`: the whole string must be
`segment_<digits>_<digits>`. -/
def anchoredSegmentMatch (cs : List Char) : Option (Nat × Nat) :=
  if ("segment_".data).isPrefixOf cs then
    let rest := cs.drop 8
    let d1 := rest.takeWhile Char.isDigit
    let r1 := rest.dropWhile Char.isDigit
    if d1 = [] then none
    else
      match r1 with
      | '_' :: r2 =>
        if r2 ≠ [] ∧ r2.all Char.isDigit then some (digitsToNat d1, digitsToNat r2)
        else none
      | _ => none
  else none

/-- Strip the trailing `POSE_DIR_SUFFIX` (`"_pose"`) if present. -/
def stripPoseSuffix (dirName : String) : String :=
  if ("_pose".data).isSuffixOf dirName.data then
    String.mk (dirName.data.take (dirName.data.length - 5))
  else dirName

/-- `run_yolo_docker.segment_start_offset` on the directory's base name. -/
def segment_start_offset (dirName : String) : Nat :=
  match anchoredSegmentMatch (stripPoseSuffix dirName).data with
  | some se => se.1
  | none => 0

/-- Python `str.split()` (no argument): split on whitespace runs,
producing no empty tokens. -/
def splitWsAux : List Char → List Char → List (List Char)
  | [], cur => if cur = [] then [] else [cur.reverse]
  | c :: rest, cur =>
    if c.isWhitespace then
      if cur = [] then splitWsAux rest [] else cur.reverse :: splitWsAux rest []
    else splitWsAux rest (c :: cur)

def splitWs (cs : List Char) : List (List Char) := splitWsAux cs []

/-- `[float(token) for token in tokens]`: all tokens must parse. -/
def parseTokens (pyFloat : List Char → Option ℚ) : List (List Char) → Option (List ℚ)
  | [] => some []
  | t :: ts =>
    match pyFloat t, parseTokens pyFloat ts with
    | some v, some vs => some (v :: vs)
    | _, _ => none

/-- A label file participates when its stem is `<base>_<digits>`;
the digits are its local frame index (`str.isdigit` check). -/
def labelFrameIndex (base stemName : String) : Option Nat :=
  let pfx := base.data ++ ['_']
  if pfx.isPrefixOf stemName.data then
    let fp := stemName.data.drop pfx.length
    if fp ≠ [] ∧ fp.all Char.isDigit then some (digitsToNat fp) else none
  else none

/-- `run_yolo_docker.read_pose_entries`: entries are
`(start_offset + local_frame_index, instance)` pairs collected over the
label files sorted by local frame index. -/
def read_pose_entries (pyFloat : List Char → Option ℚ) (dirName : String)
    (labelDir : Option (List (String × List Line))) : List (Nat × List ℚ) :=
  match labelDir with
  | none => []
  | some files =>
    let base := stripPoseSuffix dirName
    let start_offset := segment_start_offset dirName
    let label_files := files.filterMap (fun sf =>
      (labelFrameIndex base sf.1).map (fun i => (i, sf.2)))
    let sorted := sortLE (fun a b => decide (a.1 ≤ b.1)) label_files
    sorted.flatMap (fun fl =>
      fl.2.filterMap (fun line =>
        if stripChars line = [] then none
        else
          match parseTokens pyFloat (splitWs (stripChars line)) with
          | some inst => some (start_offset + fl.1, inst)
          | none => none))

/-- The combined pose artifact for one video in `combine_pose_outputs`:
`none` when no pose directory or no entry is discovered (the source prints
a warning and writes nothing), otherwise the entries sorted by absolute
frame index (Python's stable `list.sort(key=entry[0])`). -/
def combine_pose_output (pyFloat : List Char → Option ℚ)
    (poseDirs : List (String × Option (List (String × List Line)))) :
    Option (List (Nat × List ℚ)) :=
  if poseDirs.isEmpty then none
  else
    let entries := poseDirs.flatMap (fun d => read_pose_entries pyFloat d.1 d.2)
    if entries.isEmpty then none
    else some (sortLE (fun a b => decide (a.1 ≤ b.1)) entries)

/-! ### Segment materializer (`run_yolo_docker.py`, `create_segment_files`)

The transcoding collaborator is an oracle returning the process exit code
and whether the expected artifact exists afterwards.  The filesystem
`exists` predicate is threaded through the loop: a successful transcode
creates the artifact, a failed one removes any partial artifact
(`out_path.unlink()`). -/

structure TranscodeResult where
  returncode : Int
  outExists : Bool

def segPath (tmpDir : String) (s e : Nat) : String :=
  tmpDir ++ "/segment_" ++ String.mk (pyStrOfNat s) ++ "_" ++
    String.mk (pyStrOfNat e) ++ ".mp4"

/-- Returns the job list and the list of transcode invocations performed. -/
def create_segment_files (tmpDir : String) (transcode : Nat → Nat → TranscodeResult) :
    List (Nat × Nat × Nat) → (String → Bool) → List String × List (Nat × Nat)
  | [], _ => ([], [])
  | seg :: rest, fsExists =>
    let out := segPath tmpDir seg.1 seg.2.1
    if fsExists out then
      -- Reuse existing exports instead of re-running ffmpeg.
      let r := create_segment_files tmpDir transcode rest fsExists
      (out :: r.1, r.2)
    else
      let tr := transcode seg.1 seg.2.1
      if tr.returncode ≠ 0 ∨ tr.outExists = false then
        -- ffmpeg failed: drop the segment, unlink any partial artifact.
        let r := create_segment_files tmpDir transcode rest
          (fun p => if p = out then false else fsExists p)
        (r.1, (seg.1, seg.2.1) :: r.2)
      else
        let r := create_segment_files tmpDir transcode rest
          (fun p => if p = out then true else fsExists p)
        (out :: r.1, (seg.1, seg.2.1) :: r.2)

/-- `main` aborts (`SystemExit`) exactly when no segment materialized. -/
def segment_phase_fatal (jobs : List String) : Bool := jobs.isEmpty

/-! ### Job scheduler (`run_yolo_docker.py`, `main` scheduling loop) -/

/-- `pathlib.Path(p).stem`: base name minus its final extension (a leading
dot alone, as in `.bashrc`, is not an extension). -/
def stemOf (fname : String) : String :=
  let parts := splitOnChar '.' fname.data
  if parts.length ≤ 1 then fname
  else if parts.headI = [] ∧ parts.length = 2 then fname
  else String.mk (List.intercalate ['.'] (parts.dropLast))

def parentDir (path : String) : String :=
  String.mk (List.intercalate ['/'] ((splitOnChar '/' path.data).dropLast))

/-- The deterministic coords artifact path for a job: an explicit
`--coords` override, or `video.with_name(f"{stem}_{tag}_coords.txt")`. -/
def coords_host_for (coordsArg : Option String) (modelTag : String)
    (video : String) : String :=
  match coordsArg with
  | some c => c
  | none =>
    parentDir video ++ "/" ++ stemOf (baseName video) ++ "_" ++ modelTag ++ "_coords.txt"

/-- The scheduling loop of `main`: missing videos are skipped, a job whose
coords artifact already exists is skipped, every other job is submitted
with its coords path. -/
def schedule_jobs (fsExists : String → Bool) (coordsArg : Option String)
    (modelTag : String) : List String → List (String × String)
  | [] => []
  | video :: rest =>
    if fsExists video = false then schedule_jobs fsExists coordsArg modelTag rest
    else if fsExists (coords_host_for coordsArg modelTag video) then
      schedule_jobs fsExists coordsArg modelTag rest
    else
      (video, coords_host_for coordsArg modelTag video) ::
        schedule_jobs fsExists coordsArg modelTag rest

/-! ### Media prober (`run_yolo_docker.py`, `probe_video`)

Stream metadata values are exact rationals; `nb_frames` is the raw string
field (absent, or parsed by the oracle `parseNb`, modelling
`int(float(nb_frames))`).  `none` is the fatal `SystemExit`. -/

/-- Python `int()` truncates toward zero. -/
def pyIntTrunc (q : ℚ) : Int := q.num.tdiv (q.den : Int)

/-- The `elif duration > 0` fallback branch:
`frames = int(max(1, duration * fps))`. -/
def framesFromDuration (duration fps : ℚ) : Option Int :=
  if 0 < duration then some (pyIntTrunc (max 1 (duration * fps))) else none

/-- Frame-count determination of `probe_video` (after `fps` has been
parsed and defaulted): prefer a usable `nb_frames` field, otherwise derive
from a positive duration, otherwise fail. -/
def probe_frames (nb : Option String) (parseNb : String → Int)
    (duration fps : ℚ) : Option Int :=
  match nb with
  | some s =>
    if s ≠ "" ∧ s ≠ "N/A" ∧ s ≠ "0" then some (parseNb s)
    else framesFromDuration duration fps
  | none => framesFromDuration duration fps

/-! ### Theorems about the segment planner -/

theorem per_chunk_pos (frames workers : Nat) : 0 < per_chunk frames workers :=
  Nat.lt_of_lt_of_le Nat.zero_lt_one (Nat.le_max_left 1 _)

theorem segmentsLoop_cover (frames chunk : Nat) (hc : 0 < chunk) :
    ∀ fuel start, frames - start ≤ fuel →
      (segmentsLoop frames chunk start fuel).flatMap (fun s => List.range' s.1 s.2.2)
        = List.range' start (frames - start) := by
  intro fuel
  induction fuel with
  | zero =>
    intro start h
    have : frames - start = 0 := Nat.le_zero.mp h
    simp [segmentsLoop, this]
  | succ fuel ih =>
    intro start h
    by_cases hlt : start < frames
    · have he : start ≤ min (frames - 1) (start + chunk - 1) := by omega
      have he2 : min (frames - 1) (start + chunk - 1) < frames := by omega
      rw [segmentsLoop, if_pos hlt]
      rw [List.flatMap_cons, ih _ (by omega)]
      dsimp only
      have h1 : min (frames - 1) (start + chunk - 1) + 1
          = start + (min (frames - 1) (start + chunk - 1) - start + 1) := by omega
      rw [h1, List.range'_append_1]
      congr 1
      omega
    · rw [segmentsLoop, if_neg hlt]
      have : frames - start = 0 := by omega
      simp [this]

theorem segmentsLoop_bounds (frames chunk : Nat) (hc : 0 < chunk) :
    ∀ fuel start s, s ∈ segmentsLoop frames chunk start fuel →
      start ≤ s.1 ∧ s.1 ≤ s.2.1 ∧ s.2.1 < frames ∧ s.2.2 = s.2.1 - s.1 + 1 := by
  intro fuel
  induction fuel with
  | zero => intro start s h; simp [segmentsLoop] at h
  | succ fuel ih =>
    intro start s h
    by_cases hlt : start < frames
    · rw [segmentsLoop, if_pos hlt] at h
      rcases List.mem_cons.mp h with heq | hmem
      · subst heq
        refine ⟨Nat.le_refl _, ?_, ?_, rfl⟩ <;> (dsimp only; omega)
      · have := ih _ _ hmem
        refine ⟨?_, this.2.1, this.2.2.1, this.2.2.2⟩
        omega
    · rw [segmentsLoop, if_neg hlt] at h
      simp at h

theorem segmentsLoop_head (frames chunk : Nat) :
    ∀ fuel start s, (segmentsLoop frames chunk start fuel).head? = some s → s.1 = start := by
  intro fuel start s h
  cases fuel with
  | zero => simp [segmentsLoop] at h
  | succ fuel =>
    rw [segmentsLoop] at h
    by_cases hlt : start < frames
    · rw [if_pos hlt] at h
      simp at h
      rw [← h]
    · rw [if_neg hlt] at h
      simp at h

theorem segmentsLoop_chain (frames chunk : Nat) :
    ∀ fuel start, List.Chain' (fun a b : Nat × Nat × Nat => b.1 = a.2.1 + 1)
      (segmentsLoop frames chunk start fuel) := by
  intro fuel
  induction fuel with
  | zero => intro start; simp [segmentsLoop]
  | succ fuel ih =>
    intro start
    by_cases hlt : start < frames
    · rw [segmentsLoop, if_pos hlt]
      refine List.chain'_cons'.mpr ⟨?_, ih _⟩
      intro b hb
      exact segmentsLoop_head frames chunk fuel _ b hb
    · rw [segmentsLoop, if_neg hlt]
      simp

theorem segmentsLoop_pairwise (frames chunk : Nat) (hc : 0 < chunk) :
    ∀ fuel start, (segmentsLoop frames chunk start fuel).Pairwise
      (fun a b : Nat × Nat × Nat => a.2.1 < b.1) := by
  intro fuel
  induction fuel with
  | zero => intro start; simp [segmentsLoop]
  | succ fuel ih =>
    intro start
    by_cases hlt : start < frames
    · rw [segmentsLoop, if_pos hlt]
      refine List.pairwise_cons.mpr ⟨?_, ih _⟩
      intro b hb
      have := (segmentsLoop_bounds frames chunk hc fuel _ b hb).1
      dsimp only
      omega
    · rw [segmentsLoop, if_neg hlt]
      simp

theorem segmentsLoop_length (frames chunk : Nat) (hc : 0 < chunk) :
    ∀ fuel k start, frames - start ≤ k * chunk →
      (segmentsLoop frames chunk start fuel).length ≤ k := by
  intro fuel
  induction fuel with
  | zero => intro k start _; simp [segmentsLoop]
  | succ fuel ih =>
    intro k start h
    by_cases hlt : start < frames
    · rw [segmentsLoop, if_pos hlt]
      cases k with
      | zero => simp at h; omega
      | succ k =>
        rw [Nat.succ_mul] at h
        simp only [List.length_cons]
        have hrec : frames - (min (frames - 1) (start + chunk - 1) + 1) ≤ k * chunk := by
          omega
        have := ih k _ hrec
        omega
    · rw [segmentsLoop, if_neg hlt]
      simp

theorem frames_le_mul_per_chunk (frames workers : Nat)
    (hf : 1 ≤ frames) (hw : 1 ≤ workers) :
    frames ≤ workers * per_chunk frames workers := by
  have hdm := Nat.div_add_mod frames workers
  unfold per_chunk
  by_cases hr : frames % workers = 0
  · have hq : 1 ≤ frames / workers := by
      rcases Nat.eq_zero_or_pos (frames / workers) with h0 | h1
      · rw [h0, Nat.mul_zero, hr] at hdm; omega
      · exact h1
    rw [if_neg (by simp [hr]), Nat.add_zero, Nat.max_eq_right hq]
    omega
  · rw [if_pos hr]
    have hd0 : 0 ≤ frames / workers := Nat.zero_le _
    have hmax : max 1 (frames / workers + 1) = frames / workers + 1 := by omega
    rw [hmax, Nat.mul_succ]
    have hlt : frames % workers < workers := Nat.mod_lt _ hw
    omega

/-- C1: for every `frame_count ≥ 1` and `worker_count ≥ 1`, `compute_segments`
returns an ordered list of inclusive ranges that are contiguous (each segment
starts one frame after the previous one ends), pairwise non-overlapping, whose
union is exactly the frame indices `[0, frame_count)`, and whose length is at
most `worker_count`. -/
theorem compute_segments_partition (frames workers : Nat)
    (hf : 1 ≤ frames) (hw : 1 ≤ workers) :
    ((compute_segments frames workers).flatMap (fun s => List.range' s.1 s.2.2)
        = List.range frames)
    ∧ List.Chain' (fun a b : Nat × Nat × Nat => b.1 = a.2.1 + 1)
        (compute_segments frames workers)
    ∧ (compute_segments frames workers).Pairwise
        (fun a b : Nat × Nat × Nat => a.2.1 < b.1)
    ∧ (∀ s ∈ compute_segments frames workers,
        s.1 ≤ s.2.1 ∧ s.2.1 < frames ∧ s.2.2 = s.2.1 - s.1 + 1)
    ∧ (compute_segments frames workers).length ≤ workers := by
  have hc := per_chunk_pos frames workers
  refine ⟨?_, ?_, ?_, ?_, ?_⟩
  · rw [compute_segments, segmentsLoop_cover frames _ hc frames 0 (by omega),
      Nat.sub_zero, List.range_eq_range']
  · exact segmentsLoop_chain frames _ frames 0
  · exact segmentsLoop_pairwise frames _ hc frames 0
  · intro s hs
    have := segmentsLoop_bounds frames _ hc frames 0 s hs
    exact ⟨this.2.1, this.2.2.1, this.2.2.2⟩
  · exact segmentsLoop_length frames _ hc frames workers 0
      (by simpa using frames_le_mul_per_chunk frames workers hf hw)

/-- C8 counterexample: for `frame_count = 100`, `worker_count = 3` the code
does NOT return the segments `[0,33],[34,66],[67,99]` claimed by the spec's
scenario: the second segment ends at frame 67, not 66. -/
theorem compute_segments_100_3_not_spec_scenario :
    (compute_segments 100 3).map (fun s => (s.1, s.2.1)) = [(0, 33), (34, 67), (68, 99)]
    ∧ (compute_segments 100 3).map (fun s => (s.1, s.2.1)) ≠ [(0, 33), (34, 66), (67, 99)] := by
  constructor <;> decide

/-- C8 amended: for `frame_count = 100`, `worker_count = 3`,
`chunk_size = ceil(100/3) = 34` and the segments are
`[0,33],[34,67],[68,99]` with sizes 34, 34 and 32 — the second version of
the spec's scenario. -/
theorem compute_segments_100_3 :
    compute_segments 100 3 = [(0, 33, 34), (34, 67, 34), (68, 99, 32)]
    ∧ per_chunk 100 3 = 34 := by
  constructor <;> decide

/-- Witness for C1 at `frame_count = 100`, `worker_count = 3`. -/
theorem compute_segments_partition_witness :
    (1 ≤ 100 ∧ 1 ≤ 3)
    ∧ (((compute_segments 100 3).flatMap (fun s => List.range' s.1 s.2.2)
        = List.range 100)
    ∧ List.Chain' (fun a b : Nat × Nat × Nat => b.1 = a.2.1 + 1)
        (compute_segments 100 3)
    ∧ (compute_segments 100 3).Pairwise
        (fun a b : Nat × Nat × Nat => a.2.1 < b.1)
    ∧ (∀ s ∈ compute_segments 100 3,
        s.1 ≤ s.2.1 ∧ s.2.1 < 100 ∧ s.2.2 = s.2.1 - s.1 + 1)
    ∧ (compute_segments 100 3).length ≤ 3) :=
  ⟨⟨by decide, by decide⟩, compute_segments_partition 100 3 (by decide) (by decide)⟩

/-! ### Theorems about the segment materializer -/

theorem create_segment_files_skip (tmpDir : String)
    (transcode : Nat → Nat → TranscodeResult) (s e : Nat) :
    ∀ (segs : List (Nat × Nat × Nat)) (fsExists : String → Bool),
      fsExists (segPath tmpDir s e) = true →
      ((∃ c, (s, e, c) ∈ segs) →
        segPath tmpDir s e ∈ (create_segment_files tmpDir transcode segs fsExists).1)
      ∧ (s, e) ∉ (create_segment_files tmpDir transcode segs fsExists).2 := by
  intro segs
  induction segs with
  | nil =>
    intro fsE h
    constructor
    · rintro ⟨c, hc⟩; simp at hc
    · simp [create_segment_files]
  | cons seg rest ih =>
    intro fsE h
    obtain ⟨a, b, c0⟩ := seg
    simp only [create_segment_files]
    by_cases hex : fsE (segPath tmpDir a b) = true
    · rw [if_pos hex]
      refine ⟨?_, ?_⟩
      · rintro ⟨c, hc⟩
        rcases List.mem_cons.mp hc with heq | hrest
        · obtain ⟨h1, h2, h3⟩ : s = a ∧ e = b ∧ c = c0 := by simpa using heq
          rw [h1, h2]
          exact List.mem_cons_self _ _
        · exact List.mem_cons_of_mem _ ((ih fsE h).1 ⟨c, hrest⟩)
      · exact (ih fsE h).2
    · rw [if_neg hex]
      have hne : segPath tmpDir s e ≠ segPath tmpDir a b := by
        intro heq; rw [← heq] at hex; exact hex h
      have hseg : ¬ (s = a ∧ e = b) := by
        rintro ⟨h1, h2⟩; rw [h1, h2] at hne; exact hne rfl
      by_cases hfail : (transcode a b).returncode ≠ 0
          ∨ (transcode a b).outExists = false
      · rw [if_pos hfail]
        have hfs' : (fun p => if p = segPath tmpDir a b then false else fsE p)
            (segPath tmpDir s e) = true := by
          dsimp only
          rw [if_neg hne]
          exact h
        refine ⟨?_, ?_⟩
        · rintro ⟨c, hc⟩
          rcases List.mem_cons.mp hc with heq | hrest
          · obtain ⟨h1, h2, h3⟩ : s = a ∧ e = b ∧ c = c0 := by simpa using heq
            exact absurd ⟨h1, h2⟩ hseg
          · exact ((ih _ hfs').1 ⟨c, hrest⟩)
        · intro hmem
          rcases List.mem_cons.mp hmem with heq | hrest
          · obtain ⟨h1, h2⟩ : s = a ∧ e = b := by simpa using heq
            exact absurd ⟨h1, h2⟩ hseg
          · exact (ih _ hfs').2 hrest
      · rw [if_neg hfail]
        have hfs' : (fun p => if p = segPath tmpDir a b then true else fsE p)
            (segPath tmpDir s e) = true := by
          dsimp only
          rw [if_neg hne]
          exact h
        refine ⟨?_, ?_⟩
        · rintro ⟨c, hc⟩
          rcases List.mem_cons.mp hc with heq | hrest
          · obtain ⟨h1, h2, h3⟩ : s = a ∧ e = b ∧ c = c0 := by simpa using heq
            exact absurd ⟨h1, h2⟩ hseg
          · exact List.mem_cons_of_mem _ ((ih _ hfs').1 ⟨c, hrest⟩)
        · intro hmem
          rcases List.mem_cons.mp hmem with heq | hrest
          · obtain ⟨h1, h2⟩ : s = a ∧ e = b := by simpa using heq
            exact absurd ⟨h1, h2⟩ hseg
          · exact (ih _ hfs').2 hrest

/-- C4: segment materialization is idempotent — for every segment whose
target clip artifact already exists, `create_segment_files` performs no
transcoding invocation for that segment and includes the existing artifact
in the returned job list. -/
theorem materialization_idempotent (tmpDir : String)
    (transcode : Nat → Nat → TranscodeResult) (segs : List (Nat × Nat × Nat))
    (fsExists : String → Bool) (s e c : Nat)
    (hmem : (s, e, c) ∈ segs) (hex : fsExists (segPath tmpDir s e) = true) :
    segPath tmpDir s e ∈ (create_segment_files tmpDir transcode segs fsExists).1
    ∧ (s, e) ∉ (create_segment_files tmpDir transcode segs fsExists).2 :=
  ⟨(create_segment_files_skip tmpDir transcode s e segs fsExists hex).1 ⟨c, hmem⟩,
   (create_segment_files_skip tmpDir transcode s e segs fsExists hex).2⟩

/-- Witness for C4: one pre-existing segment, a transcoder that would fail. -/
theorem materialization_idempotent_witness :
    ((fun p => decide (p = "tmp/segment_0_9.mp4")) (segPath "tmp" 0 9) = true)
    ∧ (segPath "tmp" 0 9 ∈ (create_segment_files "tmp" (fun _ _ => ⟨1, false⟩)
        [(0, 9, 10)] (fun p => decide (p = "tmp/segment_0_9.mp4"))).1
      ∧ (0, 9) ∉ (create_segment_files "tmp" (fun _ _ => ⟨1, false⟩)
        [(0, 9, 10)] (fun p => decide (p = "tmp/segment_0_9.mp4"))).2) :=
  ⟨by decide,
   materialization_idempotent "tmp" (fun _ _ => ⟨1, false⟩) [(0, 9, 10)]
     (fun p => decide (p = "tmp/segment_0_9.mp4")) 0 9 10 (List.mem_singleton.mpr rfl)
     (by decide)⟩

/-- C9: a segment whose transcode fails (non-zero exit, or missing artifact
afterwards) is dropped from the job list, and processing continues with the
remaining segments; the batch is fatal only when no segment at all
materialized. -/
theorem transcode_failure_nonfatal (tmpDir : String)
    (transcode : Nat → Nat → TranscodeResult) (s e c : Nat)
    (rest : List (Nat × Nat × Nat)) (fsExists : String → Bool)
    (habs : fsExists (segPath tmpDir s e) = false)
    (hfail : (transcode s e).returncode ≠ 0 ∨ (transcode s e).outExists = false) :
    (create_segment_files tmpDir transcode ((s, e, c) :: rest) fsExists
      = ((create_segment_files tmpDir transcode rest
            (fun p => if p = segPath tmpDir s e then false else fsExists p)).1,
         (s, e) :: (create_segment_files tmpDir transcode rest
            (fun p => if p = segPath tmpDir s e then false else fsExists p)).2))
    ∧ ((create_segment_files tmpDir transcode rest
            (fun p => if p = segPath tmpDir s e then false else fsExists p)).1 ≠ [] →
        segment_phase_fatal
          (create_segment_files tmpDir transcode ((s, e, c) :: rest) fsExists).1 = false) := by
  have heq : create_segment_files tmpDir transcode ((s, e, c) :: rest) fsExists
      = ((create_segment_files tmpDir transcode rest
            (fun p => if p = segPath tmpDir s e then false else fsExists p)).1,
         (s, e) :: (create_segment_files tmpDir transcode rest
            (fun p => if p = segPath tmpDir s e then false else fsExists p)).2) := by
    simp only [create_segment_files]
    rw [if_neg (by simp [habs]), if_pos hfail]
  refine ⟨heq, ?_⟩
  intro hne
  rw [heq]
  simpa [segment_phase_fatal] using hne

/-- Witness for C9: a failing transcode on the first of two segments. -/
theorem transcode_failure_nonfatal_witness :
    ((fun p => decide (p = "tmp/segment_5_9.mp4")) (segPath "tmp" 0 4) = false
      ∧ ((fun _ _ => (⟨1, false⟩ : TranscodeResult)) 0 4).returncode ≠ 0)
    ∧ (create_segment_files "tmp" (fun _ _ => ⟨1, false⟩) [(0, 4, 5), (5, 9, 5)]
        (fun p => decide (p = "tmp/segment_5_9.mp4"))
      = ((create_segment_files "tmp" (fun _ _ => ⟨1, false⟩) [(5, 9, 5)]
            (fun p => if p = segPath "tmp" 0 4 then false
              else decide (p = "tmp/segment_5_9.mp4"))).1,
         (0, 4) :: (create_segment_files "tmp" (fun _ _ => ⟨1, false⟩) [(5, 9, 5)]
            (fun p => if p = segPath "tmp" 0 4 then false
              else decide (p = "tmp/segment_5_9.mp4"))).2)) :=
  ⟨⟨by decide, by decide⟩,
   (transcode_failure_nonfatal "tmp" (fun _ _ => ⟨1, false⟩) 0 4 5 [(5, 9, 5)]
     (fun p => decide (p = "tmp/segment_5_9.mp4")) (by decide) (Or.inl (by decide))).1⟩

/-! ### Theorems about the job scheduler -/

theorem schedule_jobs_skip (fsExists : String → Bool) (coordsArg : Option String)
    (modelTag : String) (videos : List String) (v : String)
    (hv : fsExists (coords_host_for coordsArg modelTag v) = true) :
    v ∉ (schedule_jobs fsExists coordsArg modelTag videos).map Prod.fst := by
  induction videos with
  | nil => simp [schedule_jobs]
  | cons video rest ih =>
    rw [schedule_jobs]
    by_cases h1 : fsExists video = false
    · rw [if_pos h1]; exact ih
    · rw [if_neg h1]
      by_cases h2 : fsExists (coords_host_for coordsArg modelTag video) = true
      · rw [if_pos h2]; exact ih
      · rw [if_neg h2]
        intro hmem
        rcases List.mem_map.mp hmem with ⟨p, hp, hpv⟩
        rcases List.mem_cons.mp hp with heq | hrest
        · rw [heq] at hpv
          dsimp at hpv
          rw [hpv] at h2
          exact h2 hv
        · exact ih (List.mem_map.mpr ⟨p, hrest, hpv⟩)

theorem schedule_jobs_all_skip (fsExists : String → Bool) (coordsArg : Option String)
    (modelTag : String) (videos : List String)
    (hall : ∀ v ∈ videos, fsExists (coords_host_for coordsArg modelTag v) = true) :
    schedule_jobs fsExists coordsArg modelTag videos = [] := by
  induction videos with
  | nil => rfl
  | cons video rest ih =>
    rw [schedule_jobs]
    by_cases h1 : fsExists video = false
    · rw [if_pos h1]
      exact ih (fun v hvv => hall v (List.mem_cons_of_mem _ hvv))
    · rw [if_neg h1, if_pos (hall video (List.mem_cons_self _ _))]
      exact ih (fun v hvv => hall v (List.mem_cons_of_mem _ hvv))

/-- C5: a job whose output coords artifact already exists at its
deterministic path is never submitted to the worker pool; in particular,
when every job's artifact exists the scheduler submits zero jobs. -/
theorem scheduler_resumability (fsExists : String → Bool) (coordsArg : Option String)
    (modelTag : String) (videos : List String) :
    (∀ v, fsExists (coords_host_for coordsArg modelTag v) = true →
        v ∉ (schedule_jobs fsExists coordsArg modelTag videos).map Prod.fst)
    ∧ ((∀ v ∈ videos, fsExists (coords_host_for coordsArg modelTag v) = true) →
        schedule_jobs fsExists coordsArg modelTag videos = []) :=
  ⟨fun v hv => schedule_jobs_skip fsExists coordsArg modelTag videos v hv,
   fun hall => schedule_jobs_all_skip fsExists coordsArg modelTag videos hall⟩

/-- Witness for C5: a single video whose coords artifact exists. -/
theorem scheduler_resumability_witness :
    ((fun p => decide (p = "/d/v.mp4" ∨ p = "/d/v_pose_coords.txt"))
        (coords_host_for none "pose" "/d/v.mp4") = true)
    ∧ "/d/v.mp4" ∉ (schedule_jobs
        (fun p => decide (p = "/d/v.mp4" ∨ p = "/d/v_pose_coords.txt"))
        none "pose" ["/d/v.mp4"]).map Prod.fst
    ∧ schedule_jobs (fun p => decide (p = "/d/v.mp4" ∨ p = "/d/v_pose_coords.txt"))
        none "pose" ["/d/v.mp4"] = [] :=
  ⟨by decide,
   (scheduler_resumability (fun p => decide (p = "/d/v.mp4" ∨ p = "/d/v_pose_coords.txt"))
      none "pose" ["/d/v.mp4"]).1 "/d/v.mp4" (by decide),
   (scheduler_resumability (fun p => decide (p = "/d/v.mp4" ∨ p = "/d/v_pose_coords.txt"))
      none "pose" ["/d/v.mp4"]).2 (by intro v hv; rw [List.mem_singleton.mp hv]; decide)⟩

/-! ### Theorems about the line-oriented merge -/

theorem pathLE_trans (a b c : String) (hab : pathLE a b) (hbc : pathLE b c) :
    pathLE a c :=
  decide_eq_true (le_trans (of_decide_eq_true hab) (of_decide_eq_true hbc))

theorem pathLE_total (a b : String) : pathLE a b || pathLE b a := by
  rcases le_total a b with h | h <;> simp [pathLE, h]

theorem insertLE_perm {α : Type} (le : α → α → Bool) (x : α) :
    ∀ l : List α, (insertLE le x l).Perm (x :: l)
  | [] => List.Perm.refl _
  | y :: ys => by
    rw [insertLE]
    split
    · exact List.Perm.refl _
    · exact ((insertLE_perm le x ys).cons y).trans (List.Perm.swap x y ys)

theorem sortLE_perm {α : Type} (le : α → α → Bool) :
    ∀ l : List α, (sortLE le l).Perm l
  | [] => List.Perm.refl _
  | x :: xs => (insertLE_perm le x (sortLE le xs)).trans ((sortLE_perm le xs).cons x)

theorem insertLE_pairwise {α : Type} (le : α → α → Bool)
    (htrans : ∀ a b c, le a b → le b c → le a c)
    (htotal : ∀ a b, le a b || le b a) (x : α) :
    ∀ l : List α, l.Pairwise (fun a b => le a b = true) →
      (insertLE le x l).Pairwise (fun a b => le a b = true)
  | [], _ => by simp [insertLE]
  | y :: ys, h => by
    rw [insertLE]
    obtain ⟨hy, hys⟩ := List.pairwise_cons.mp h
    by_cases hxy : le x y = true
    · rw [if_pos hxy]
      refine List.pairwise_cons.mpr ⟨?_, h⟩
      intro b hb
      rcases List.mem_cons.mp hb with hb | hb
      · rw [hb]; exact hxy
      · exact htrans x y b hxy (hy b hb)
    · rw [if_neg hxy]
      refine List.pairwise_cons.mpr ⟨?_, insertLE_pairwise le htrans htotal x ys hys⟩
      intro b hb
      rcases List.mem_cons.mp ((insertLE_perm le x ys).mem_iff.mp hb) with hb | hb
      · rw [hb]
        rcases Bool.or_eq_true_iff.mp (htotal x y) with h1 | h1
        · exact absurd h1 hxy
        · exact h1
      · exact hy b hb

theorem sortLE_pairwise {α : Type} (le : α → α → Bool)
    (htrans : ∀ a b c, le a b → le b c → le a c)
    (htotal : ∀ a b, le a b || le b a) :
    ∀ l : List α, (sortLE le l).Pairwise (fun a b => le a b = true)
  | [] => by simp [sortLE]
  | x :: xs =>
    insertLE_pairwise le htrans htotal x (sortLE le xs)
      (sortLE_pairwise le htrans htotal xs)

theorem sortLE_pathLE_eq_of_perm {l₁ l₂ : List String} (h : l₁.Perm l₂) :
    sortLE pathLE l₁ = sortLE pathLE l₂ := by
  have hperm : (sortLE pathLE l₁).Perm (sortLE pathLE l₂) :=
    (sortLE_perm pathLE l₁).trans (h.trans (sortLE_perm pathLE l₂).symm)
  refine @List.eq_of_perm_of_sorted String (fun a b => pathLE a b = true) ⟨?_⟩ _ _
    hperm ?_ ?_
  · intro a b hab hba
    exact le_antisymm (of_decide_eq_true hab) (of_decide_eq_true hba)
  · exact sortLE_pairwise pathLE pathLE_trans pathLE_total l₁
  · exact sortLE_pairwise pathLE pathLE_trans pathLE_total l₂

/-- C3: the line-oriented merge is deterministic and independent of
submission order — on any permutation of the same file list (with the same
filesystem contents) `combine_coordinate_files` produces byte-identical
output. -/
theorem combine_order_independent (fs : String → Option (List Line))
    (l₁ l₂ : List String) (h : l₁.Perm l₂) :
    combine_coordinate_files fs l₁ = combine_coordinate_files fs l₂ := by
  rw [combine_coordinate_files, combine_coordinate_files, combine_lines, combine_lines,
    sortLE_pathLE_eq_of_perm h]

/-- Witness for C3: swapping two concrete files. -/
theorem combine_order_independent_witness :
    (["b.txt", "a.txt"] : List String).Perm ["a.txt", "b.txt"]
    ∧ combine_coordinate_files (fun _ => none) ["b.txt", "a.txt"]
        = combine_coordinate_files (fun _ => none) ["a.txt", "b.txt"] :=
  ⟨List.Perm.swap "a.txt" "b.txt" [],
   combine_order_independent (fun _ => none) _ _ (List.Perm.swap "a.txt" "b.txt" [])⟩

theorem digitChar_ne_hash (d : Nat) : digitChar d ≠ '#' := by
  unfold digitChar
  repeat' split
  all_goals decide

theorem natDigits_mem_digit : ∀ fuel n c, c ∈ natDigits fuel n → ∃ d, c = digitChar d := by
  intro fuel
  induction fuel with
  | zero => intro n c h; simp [natDigits] at h
  | succ fuel ih =>
    intro n c h
    rw [natDigits] at h
    by_cases hn : n = 0
    · rw [if_pos hn] at h; simp at h
    · rw [if_neg hn] at h
      rcases List.mem_append.mp h with h1 | h2
      · exact ih _ _ h1
      · rw [List.mem_singleton.mp h2]; exact ⟨n % 10, rfl⟩

theorem pyStrOfNat_ne_nil (n : Nat) : pyStrOfNat n ≠ [] := by
  rw [pyStrOfNat]
  by_cases hn : n = 0
  · rw [if_pos hn]; simp
  · rw [if_neg hn]
    cases n with
    | zero => exact absurd rfl hn
    | succ m =>
      rw [natDigits, if_neg hn]
      simp

theorem pyStrOfNat_chars (n : Nat) : ∀ c ∈ pyStrOfNat n, ∃ d, c = digitChar d := by
  intro c h
  rw [pyStrOfNat] at h
  by_cases hn : n = 0
  · rw [if_pos hn] at h
    rw [List.mem_singleton.mp h]
    exact ⟨0, rfl⟩
  · rw [if_neg hn] at h
    exact natDigits_mem_digit n n c h

theorem headI_append {x y : List Char} (hx : x ≠ []) : (x ++ y).headI = x.headI := by
  cases x with
  | nil => exact absurd rfl hx
  | cons a l => rfl

theorem pyStrOfInt_ne_nil (i : Int) : pyStrOfInt i ≠ [] := by
  cases i with
  | ofNat m => exact pyStrOfNat_ne_nil m
  | negSucc m => simp [pyStrOfInt]

theorem pyStrOfInt_headI_ne_hash (i : Int) : (pyStrOfInt i).headI ≠ '#' := by
  cases i with
  | ofNat m =>
    show (pyStrOfNat m).headI ≠ '#'
    obtain ⟨c, cs, hc⟩ := List.exists_cons_of_ne_nil (pyStrOfNat_ne_nil m)
    have hmem : c ∈ pyStrOfNat m := by rw [hc]; exact List.mem_cons_self _ _
    obtain ⟨d, hd⟩ := pyStrOfNat_chars m c hmem
    rw [hc]
    simpa [hd] using digitChar_ne_hash d
  | negSucc m =>
    show ('-' :: pyStrOfNat (m + 1)).headI ≠ '#'
    exact (by decide : ('-' : Char) ≠ '#')

/-- The first character of an offset-corrected record is a digit or a
minus sign, never `#`. -/
theorem adjusted_headI_ne_hash (v : Int) (rest : List Line) :
    (List.intercalate ['\t'] (pyStrOfInt v :: rest)).headI ≠ '#' := by
  cases rest with
  | nil =>
    rw [List.intercalate]
    simpa using pyStrOfInt_headI_ne_hash v
  | cons y ys =>
    rw [List.intercalate]
    rw [List.intersperse_cons_cons, List.flatten_cons]
    rw [headI_append (pyStrOfInt_ne_nil v)]
    exact pyStrOfInt_headI_ne_hash v

theorem processLine_fst (s : Nat) (st : Bool × List Line) (line : Line) :
    (processLine s st line).1 = (st.1 || (line.headI == '#')) := by
  simp only [processLine]
  by_cases h0 : line = []
  · rw [if_pos h0, h0]
    simp
  · rw [if_neg h0]
    by_cases h1 : line.headI = '#'
    · rw [if_pos h1]
      by_cases h2 : st.1 = true
      · rw [if_pos h2, h2]
        simp [h1]
      · rw [if_neg h2]
        simp [h1]
    · rw [if_neg h1]
      have hb : (line.headI == '#') = false := by simp [h1]
      rw [hb, Bool.or_false]
      split
      · rfl
      · split
        · rfl
        · rfl

theorem headerLines_append (a b : List Line) :
    headerLines (a ++ b) = headerLines a ++ headerLines b := by
  simp [headerLines, List.filter_append]

theorem headerLines_single_pos {l : Line} (h : l.headI = '#') :
    headerLines [l] = [l] := by
  simp [headerLines, h]

theorem headerLines_single_neg {l : Line} (h : l.headI ≠ '#') :
    headerLines [l] = [] := by
  have hb : (l.headI == '#') = false := by simp [h]
  simp [headerLines, List.filter_cons, hb]

theorem headerLines_cons_pos {l : Line} (rest : List Line) (h : l.headI = '#') :
    headerLines (l :: rest) = l :: headerLines rest := by
  simp [headerLines, h]

theorem headerLines_cons_neg {l : Line} (rest : List Line) (h : l.headI ≠ '#') :
    headerLines (l :: rest) = headerLines rest := by
  have hb : (l.headI == '#') = false := by simp [h]
  simp [headerLines, List.filter_cons, hb]

theorem processLine_snd_headers (s : Nat) (st : Bool × List Line) (line : Line) :
    headerLines (processLine s st line).2
      = headerLines st.2 ++ (if st.1 then [] else headerLines [line]) := by
  obtain ⟨b, acc⟩ := st
  have hadj : ∀ (f : Int),
      headerLines
        [List.intercalate ['\t'] (pyStrOfInt (f + (s : Int)) :: (splitTab line).tail)]
        = [] := fun f => headerLines_single_neg (adjusted_headI_ne_hash _ _)
  simp only [processLine]
  by_cases h0 : line = []
  · subst h0
    have hnil : headerLines [([] : Line)] = [] := headerLines_single_neg (by decide)
    cases b <;> simp [hnil]
  · rw [if_neg h0]
    by_cases h1 : line.headI = '#'
    · rw [if_pos h1]
      cases b
      · simp [headerLines_append, headerLines_single_pos h1]
      · simp
    · rw [if_neg h1]
      rw [headerLines_single_neg h1]
      cases b <;>
        · split
          · simp
          · split
            · simp
            · simp [headerLines_append, hadj]

theorem foldl_processLine_headers (s : Nat) (lines : List Line) :
    ∀ st : Bool × List Line,
      ((lines.foldl (processLine s) st).1
          = (st.1 || !(headerLines lines).isEmpty))
      ∧ headerLines (lines.foldl (processLine s) st).2
          = headerLines st.2 ++ (if st.1 then [] else (headerLines lines).take 1) := by
  induction lines with
  | nil =>
    intro st
    constructor
    · simp [headerLines]
    · cases hst : st.1 <;> simp [headerLines]
  | cons l rest ih =>
    intro st
    rw [List.foldl_cons]
    obtain ⟨ih1, ih2⟩ := ih (processLine s st l)
    by_cases hl : l.headI = '#'
    · have hb : (l.headI == '#') = true := by simp [hl]
      have hcons := headerLines_cons_pos rest hl
      constructor
      · rw [ih1, processLine_fst, hb, hcons]
        simp
      · rw [ih2, processLine_snd_headers, processLine_fst, hb, hcons]
        cases hst : st.1
        · rw [headerLines_single_pos hl]
          simp
        · simp
    · have hb : (l.headI == '#') = false := by simp [hl]
      have hcons := headerLines_cons_neg rest hl
      constructor
      · rw [ih1, processLine_fst, hb, hcons, Bool.or_false]
      · rw [ih2, processLine_snd_headers, processLine_fst, hb, hcons, Bool.or_false,
          headerLines_single_neg hl]
        cases hst : st.1 <;> simp

theorem processFile_headers (fs : String → Option (List Line)) (file : String)
    (st : Bool × List Line) :
    ((processFile fs st file).1
        = (st.1 || !(headerLines (fileLines fs file)).isEmpty))
    ∧ headerLines (processFile fs st file).2
        = headerLines st.2
          ++ (if st.1 then [] else (headerLines (fileLines fs file)).take 1) := by
  rw [processFile, fileLines]
  cases fs file with
  | none =>
    constructor
    · simp [headerLines]
    · cases hst : st.1 <;> simp [headerLines]
  | some lines =>
    cases parse_segment_filename (baseName file) with
    | none =>
      constructor
      · simp [headerLines]
      · cases hst : st.1 <;> simp [headerLines]
    | some se => exact foldl_processLine_headers se.1 lines st

theorem foldl_processFile_headers (fs : String → Option (List Line))
    (files : List String) :
    ∀ st : Bool × List Line,
      ((files.foldl (processFile fs) st).1
          = (st.1 || !(headerLines (files.flatMap (fileLines fs))).isEmpty))
      ∧ headerLines (files.foldl (processFile fs) st).2
          = headerLines st.2
            ++ (if st.1 then []
                else (headerLines (files.flatMap (fileLines fs))).take 1) := by
  induction files with
  | nil =>
    intro st
    constructor
    · simp [headerLines]
    · cases hst : st.1 <;> simp [headerLines]
  | cons file rest ih =>
    intro st
    rw [List.foldl_cons]
    obtain ⟨ih1, ih2⟩ := ih (processFile fs st file)
    obtain ⟨pf1, pf2⟩ := processFile_headers fs file st
    have happ : headerLines ((file :: rest).flatMap (fileLines fs))
        = headerLines (fileLines fs file)
          ++ headerLines (rest.flatMap (fileLines fs)) := by
      rw [List.flatMap_cons, headerLines_append]
    have hie : ∀ (a b : List Line), (a ++ b).isEmpty = (a.isEmpty && b.isEmpty) := by
      intro a b
      cases a <;> simp
    constructor
    · rw [ih1, pf1, happ, hie]
      cases (headerLines (fileLines fs file)).isEmpty <;>
        cases (headerLines (rest.flatMap (fileLines fs))).isEmpty <;> simp
    · rw [ih2, pf2, pf1, happ]
      cases hst : st.1
      · by_cases hA : headerLines (fileLines fs file) = []
        · rw [hA]
          simp
        · obtain ⟨h, t, hht⟩ := List.exists_cons_of_ne_nil hA
          rw [hht]
          simp
      · simp

theorem processLine_mem (s : Nat) (st : Bool × List Line) (l out : Line)
    (h : out ∈ (processLine s st l).2) :
    out ∈ st.2 ∨ (l.headI = '#' ∧ out = l)
    ∨ ∃ f, (splitTab l).length = 7 ∧ pyParseInt (splitTab l).headI = some f ∧
        out = List.intercalate ['\t'] (pyStrOfInt (f + (s : Int)) :: (splitTab l).tail) := by
  revert h
  simp only [processLine]
  by_cases h0 : l = []
  · rw [if_pos h0]
    exact Or.inl
  · rw [if_neg h0]
    by_cases h1 : l.headI = '#'
    · rw [if_pos h1]
      by_cases h2 : st.1 = true
      · rw [if_pos h2]
        exact Or.inl
      · rw [if_neg h2]
        intro h
        rcases List.mem_append.mp h with ha | hb
        · exact Or.inl ha
        · exact Or.inr (Or.inl ⟨h1, List.mem_singleton.mp hb⟩)
    · rw [if_neg h1]
      by_cases h7 : (splitTab l).length ≠ 7
      · rw [if_pos h7]
        exact Or.inl
      · rw [if_neg h7]
        cases hp : pyParseInt (splitTab l).headI with
        | none =>
          intro h
          exact Or.inl h
        | some f =>
          intro h
          rcases List.mem_append.mp h with ha | hb
          · exact Or.inl ha
          · refine Or.inr (Or.inr ⟨f, by omega, rfl, List.mem_singleton.mp hb⟩)

theorem foldl_processLine_mem (s : Nat) (lines : List Line) :
    ∀ (st : Bool × List Line) (out : Line),
      out ∈ (lines.foldl (processLine s) st).2 →
      out ∈ st.2 ∨ ∃ line ∈ lines,
        ((line.headI = '#' ∧ out = line)
         ∨ ∃ f, (splitTab line).length = 7 ∧ pyParseInt (splitTab line).headI = some f ∧
             out = List.intercalate ['\t']
               (pyStrOfInt (f + (s : Int)) :: (splitTab line).tail)) := by
  induction lines with
  | nil => intro st out h; exact Or.inl h
  | cons l rest ih =>
    intro st out h
    rw [List.foldl_cons] at h
    rcases ih _ out h with hst | ⟨line, hmem, hcase⟩
    · rcases processLine_mem s st l out hst with h1 | h2 | h3
      · exact Or.inl h1
      · exact Or.inr ⟨l, List.mem_cons_self _ _, Or.inl h2⟩
      · exact Or.inr ⟨l, List.mem_cons_self _ _, Or.inr h3⟩
    · exact Or.inr ⟨line, List.mem_cons_of_mem _ hmem, hcase⟩

theorem processFile_mem (fs : String → Option (List Line)) (st : Bool × List Line)
    (file : String) (out : Line) (h : out ∈ (processFile fs st file).2) :
    out ∈ st.2 ∨ ∃ s e lines line, fs file = some lines
      ∧ parse_segment_filename (baseName file) = some (s, e) ∧ line ∈ lines
      ∧ ((line.headI = '#' ∧ out = line)
         ∨ ∃ f, (splitTab line).length = 7 ∧ pyParseInt (splitTab line).headI = some f ∧
             out = List.intercalate ['\t']
               (pyStrOfInt (f + (s : Int)) :: (splitTab line).tail)) := by
  revert h
  rw [processFile]
  cases hfs : fs file with
  | none => exact Or.inl
  | some lines =>
    cases hparse : parse_segment_filename (baseName file) with
    | none => exact Or.inl
    | some se =>
      intro h
      rcases foldl_processLine_mem se.1 lines st out h with hst | ⟨line, hmem, hcase⟩
      · exact Or.inl hst
      · exact Or.inr ⟨se.1, se.2, lines, line, rfl, rfl, hmem, hcase⟩

theorem foldl_processFile_mem (fs : String → Option (List Line)) (files : List String) :
    ∀ (st : Bool × List Line) (out : Line),
      out ∈ (files.foldl (processFile fs) st).2 →
      out ∈ st.2 ∨ ∃ file ∈ files, ∃ s e lines line, fs file = some lines
        ∧ parse_segment_filename (baseName file) = some (s, e) ∧ line ∈ lines
        ∧ ((line.headI = '#' ∧ out = line)
           ∨ ∃ f, (splitTab line).length = 7
               ∧ pyParseInt (splitTab line).headI = some f
               ∧ out = List.intercalate ['\t']
                   (pyStrOfInt (f + (s : Int)) :: (splitTab line).tail)) := by
  induction files with
  | nil => intro st out h; exact Or.inl h
  | cons file rest ih =>
    intro st out h
    rw [List.foldl_cons] at h
    rcases ih _ out h with hst | ⟨f', hmem, hcase⟩
    · rcases processFile_mem fs st file out hst with h1 | h2
      · exact Or.inl h1
      · exact Or.inr ⟨file, List.mem_cons_self _ _, h2⟩
    · exact Or.inr ⟨f', List.mem_cons_of_mem _ hmem, hcase⟩

/-- Every line of the merged output is either the retained header or an
offset-corrected data record. -/
theorem combine_lines_mem (fs : String → Option (List Line)) (files : List String)
    (out : Line) (h : out ∈ (combine_lines fs files).2) :
    out.headI = '#' ∨ IsAdjustedRecord fs files out := by
  rw [combine_lines] at h
  rcases foldl_processFile_mem fs (sortLE pathLE files) (false, []) out h with
    hnil | ⟨file, hfile, s, e, lines, line, hfs, hparse, hline, hcase⟩
  · simp at hnil
  · rcases hcase with ⟨hhead, hout⟩ | ⟨f, h7, hpf, hout⟩
    · exact Or.inl (by rw [hout]; exact hhead)
    · exact Or.inr ⟨file, s, e, lines, line, f,
        (sortLE_perm pathLE files).mem_iff.mp hfile, hfs,
        hparse, hline, h7, hpf, hout⟩

theorem read_pose_entries_mem (pyFloat : List Char → Option ℚ) (dirName : String)
    (files : List (String × List Line)) (entry : Nat × List ℚ)
    (h : entry ∈ read_pose_entries pyFloat dirName (some files)) :
    ∃ stem lines i, (stem, lines) ∈ files
      ∧ labelFrameIndex (stripPoseSuffix dirName) stem = some i
      ∧ entry.1 = segment_start_offset dirName + i := by
  simp only [read_pose_entries] at h
  rcases List.mem_flatMap.mp h with ⟨fl, hfl, hentry⟩
  rw [(sortLE_perm _ _).mem_iff] at hfl
  rcases List.mem_filterMap.mp hfl with ⟨sf, hsf, hmap⟩
  cases hidx : labelFrameIndex (stripPoseSuffix dirName) sf.1 with
  | none => rw [hidx] at hmap; simp at hmap
  | some i =>
    rw [hidx] at hmap
    have hfl : (i, sf.2) = fl := Option.some_inj.mp hmap
    subst hfl
    rcases List.mem_filterMap.mp hentry with ⟨line, _hline, hg⟩
    have hg' : (if stripChars line = [] then none
        else match parseTokens pyFloat (splitWs (stripChars line)) with
          | some inst => some (segment_start_offset dirName + i, inst)
          | none => none) = some entry := hg
    by_cases hpay : stripChars line = []
    · rw [if_pos hpay] at hg'
      exact Option.noConfusion hg'
    · rw [if_neg hpay] at hg'
      cases hpt : parseTokens pyFloat (splitWs (stripChars line)) with
      | none =>
        rw [hpt] at hg'
        exact Option.noConfusion hg'
      | some inst =>
        rw [hpt] at hg'
        have hentry' : entry = (segment_start_offset dirName + i, inst) :=
          (Option.some_inj.mp hg').symm
        refine ⟨sf.1, sf.2, i, hsf, hidx, ?_⟩
        rw [hentry']

theorem combine_pose_output_mem (pyFloat : List Char → Option ℚ)
    (dirs : List (String × Option (List (String × List Line))))
    (out : List (Nat × List ℚ)) (entry : Nat × List ℚ)
    (hout : combine_pose_output pyFloat dirs = some out) (hmem : entry ∈ out) :
    ∃ d files stem lines i, (d, some files) ∈ dirs
      ∧ (stem, lines) ∈ files
      ∧ labelFrameIndex (stripPoseSuffix d) stem = some i
      ∧ entry.1 = segment_start_offset d + i := by
  rw [combine_pose_output] at hout
  by_cases hd : dirs.isEmpty
  · rw [if_pos hd] at hout
    exact absurd hout (by simp)
  · rw [if_neg hd] at hout
    by_cases he : (dirs.flatMap fun d => read_pose_entries pyFloat d.1 d.2).isEmpty
    · rw [if_pos he] at hout
      exact absurd hout (by simp)
    · rw [if_neg he] at hout
      have hout' := Option.some_inj.mp hout
      rw [← hout'] at hmem
      rw [(sortLE_perm _ _).mem_iff] at hmem
      rcases List.mem_flatMap.mp hmem with ⟨dp, hdp, hentry⟩
      obtain ⟨d, odf⟩ := dp
      cases odf with
      | none => simp [read_pose_entries] at hentry
      | some files =>
        obtain ⟨stem, lines, i, hsl, hidx, hoff⟩ :=
          read_pose_entries_mem pyFloat d files entry hentry
        exact ⟨d, files, stem, lines, i, hdp, hsl, hidx, hoff⟩

/-- C2: in both merge algorithms, every record's frame index in the merged
output equals its local frame index plus the originating segment's start
offset — every non-header line of the line-oriented merge is an
offset-corrected record, and every entry of the structured pose merge has
absolute frame `segment_start_offset + local_index`. -/
theorem merge_offset_correction :
    (∀ (fs : String → Option (List Line)) (files : List String) (out : Line),
      out ∈ (combine_lines fs files).2 →
      out.headI = '#' ∨ IsAdjustedRecord fs files out)
    ∧ (∀ (pyFloat : List Char → Option ℚ)
        (dirs : List (String × Option (List (String × List Line))))
        (out : List (Nat × List ℚ)) (entry : Nat × List ℚ),
        combine_pose_output pyFloat dirs = some out → entry ∈ out →
        ∃ d files stem lines i, (d, some files) ∈ dirs
          ∧ (stem, lines) ∈ files
          ∧ labelFrameIndex (stripPoseSuffix d) stem = some i
          ∧ entry.1 = segment_start_offset d + i) :=
  ⟨combine_lines_mem, combine_pose_output_mem⟩

/-- Witness for C2: a record with local frame index 5 from a segment with
start offset 120 appears with frame 125, in both merges. -/
theorem merge_offset_correction_witness :
    (("125\t\t\t\t\t\t".data ∈ (combine_lines
        (fun p => if p = "segment_120_300_yolo11_coords.txt"
          then some ["5\t\t\t\t\t\t".data] else none)
        ["segment_120_300_yolo11_coords.txt"]).2)
      ∧ (("125\t\t\t\t\t\t".data).headI = '#'
        ∨ IsAdjustedRecord
            (fun p => if p = "segment_120_300_yolo11_coords.txt"
              then some ["5\t\t\t\t\t\t".data] else none)
            ["segment_120_300_yolo11_coords.txt"] ("125\t\t\t\t\t\t".data)))
    ∧ (combine_pose_output (fun t => if t = ['1'] then some (1 : ℚ) else none)
          [("segment_120_240_pose", some [("segment_120_240_5", [['1']])])]
        = some [(125, [(1 : ℚ)])]
      ∧ ∃ d files stem lines i,
          (d, some files)
            ∈ [("segment_120_240_pose", some [("segment_120_240_5", [['1']])])]
          ∧ (stem, lines) ∈ files
          ∧ labelFrameIndex (stripPoseSuffix d) stem = some i
          ∧ ((125 : Nat), [(1 : ℚ)]).1 = segment_start_offset d + i) :=
  ⟨⟨by decide, merge_offset_correction.1 _ _ _ (by decide)⟩,
   ⟨by decide,
    merge_offset_correction.2 (fun t => if t = ['1'] then some (1 : ℚ) else none)
      [("segment_120_240_pose", some [("segment_120_240_5", [['1']])])]
      [(125, [(1 : ℚ)])] ((125 : Nat), [(1 : ℚ)]) (by decide) (by decide)⟩⟩

theorem foldl_processFile_missing (fs : String → Option (List Line)) :
    ∀ (files : List String) (st : Bool × List Line),
      (∀ f ∈ files, fs f = none) → files.foldl (processFile fs) st = st := by
  intro files
  induction files with
  | nil => intro st _; rfl
  | cons file rest ih =>
    intro st h
    rw [List.foldl_cons]
    have h1 : processFile fs st file = st := by
      rw [processFile, h file (List.mem_cons_self _ _)]
    rw [h1]
    exact ih st (fun f hf => h f (List.mem_cons_of_mem _ hf))

/-- C10: the line-oriented merge always writes its output artifact — for
every input list it produces `some` content, and when every input file is
missing the artifact is still written, with empty content; the structured
pose merge instead withholds its artifact when no entry is discovered. -/
theorem line_merge_always_writes :
    (∀ (fs : String → Option (List Line)) (files : List String),
      (combine_coordinate_files_run fs files).isSome = true)
    ∧ (∀ (fs : String → Option (List Line)) (files : List String),
      (∀ f ∈ files, fs f = none) →
      combine_coordinate_files_run fs files = some [])
    ∧ (∀ (pyFloat : List Char → Option ℚ)
        (dirs : List (String × Option (List (String × List Line)))),
        (dirs.flatMap fun d => read_pose_entries pyFloat d.1 d.2) = [] →
        combine_pose_output pyFloat dirs = none) := by
  refine ⟨fun fs files => rfl, ?_, ?_⟩
  · intro fs files h
    rw [combine_coordinate_files_run, combine_coordinate_files, combine_lines]
    rw [foldl_processFile_missing fs (sortLE pathLE files) (false, [])
      (fun f hf => h f ((sortLE_perm pathLE files).mem_iff.mp hf))]
    rfl
  · intro pyFloat dirs h
    simp [combine_pose_output, h]

/-- Witness for C10: all input files missing; an empty pose label
directory. -/
theorem line_merge_always_writes_witness :
    ((∀ f ∈ (["segment_0_9_coords.txt"] : List String),
        (fun _ => (none : Option (List Line))) f = none)
      ∧ combine_coordinate_files_run (fun _ => none) ["segment_0_9_coords.txt"]
          = some [])
    ∧ (([("v_pose", some ([] : List (String × List Line)))].flatMap
          (fun d => read_pose_entries (fun _ => (none : Option ℚ)) d.1 d.2)) = []
      ∧ combine_pose_output (fun _ => (none : Option ℚ)) [("v_pose", some [])]
          = none) :=
  ⟨⟨fun f _ => rfl, line_merge_always_writes.2.1 _ _ (fun f _ => rfl)⟩,
   ⟨by decide, line_merge_always_writes.2.2 _ _ (by decide)⟩⟩

/-- C6: exactly the first `#`-prefixed header line encountered across all
files (in processing order) is kept in the merged output; every subsequent
`#`-prefixed line is discarded and never duplicated. -/
theorem merge_header_retention (fs : String → Option (List Line))
    (files : List String) :
    headerLines (combine_lines fs files).2
      = (headerLines (encounteredLines fs files)).take 1 := by
  rw [combine_lines, encounteredLines]
  have h := (foldl_processFile_headers fs (sortLE pathLE files) (false, [])).2
  rw [h]
  simp [headerLines]

/-! ### Theorems about the media prober -/

theorem pyIntTrunc_eq_floor (q : ℚ) (h : 0 ≤ q) : pyIntTrunc q = ⌊q⌋ := by
  rw [pyIntTrunc, Int.tdiv_eq_ediv (Rat.num_nonneg.mpr h) (by positivity), ← Rat.floor_def]

theorem floor_max_one (x : ℚ) : ⌊max 1 x⌋ = max 1 ⌊x⌋ := by
  rcases le_total 1 x with hx | hx
  · rw [max_eq_right hx, max_eq_right]
    exact Int.le_floor.mpr (by exact_mod_cast hx)
  · rw [max_eq_left hx, Int.floor_one, max_eq_left]
    have := Int.floor_le_floor hx
    rwa [Int.floor_one] at this

/-- C7 counterexample: with no frame-count field, duration `1/2` s and rate
`5` fps the code computes `int(max(1, 5/2)) = 2` frames, while the claimed
`ceil(duration * frame_rate)` clamped to at least 1 is `3`. -/
theorem probe_frames_not_ceil :
    probe_frames none (fun _ => 0) (1/2) 5 = some 2
    ∧ max 1 ⌈((1:ℚ)/2) * 5⌉ = 3
    ∧ (2 : Int) ≠ 3 := by
  have hmul : ((1:ℚ)/2) * 5 = 5/2 := by norm_num
  refine ⟨?_, ?_, by decide⟩
  · show framesFromDuration (1/2) 5 = some 2
    rw [framesFromDuration, if_pos (by norm_num), hmul,
      max_eq_right (by norm_num : (1:ℚ) ≤ 5/2),
      pyIntTrunc_eq_floor _ (by norm_num)]
    have hf : ⌊(5:ℚ)/2⌋ = 2 := by
      rw [Int.floor_eq_iff]
      constructor <;> norm_num
    rw [hf]
  · rw [hmul]
    have hc : ⌈(5:ℚ)/2⌉ = 3 := by
      rw [Int.ceil_eq_iff]
      constructor <;> norm_num
    rw [hc]
    decide

/-- C7 amended: when no usable explicit frame-count field is present and the
duration is positive, the frame count is `int(max(1, duration * fps))` —
the floor (truncation), not the ceiling, of `duration * fps`, clamped to at
least 1; probing fails exactly when no usable frame-count field is present
and the duration is not positive. -/
theorem probe_frames_duration_fallback :
    (∀ (nb : Option String) (p : String → Int) (duration fps : ℚ),
      (nb = none ∨ nb = some "" ∨ nb = some "N/A" ∨ nb = some "0") →
      0 < duration → 0 ≤ fps →
      probe_frames nb p duration fps = some (max 1 ⌊duration * fps⌋))
    ∧ (∀ (nb : Option String) (p : String → Int) (duration fps : ℚ),
      probe_frames nb p duration fps = none
        ↔ ((nb = none ∨ nb = some "" ∨ nb = some "N/A" ∨ nb = some "0")
            ∧ duration ≤ 0)) := by
  have hfall : ∀ (duration fps : ℚ), 0 < duration → 0 ≤ fps →
      framesFromDuration duration fps = some (max 1 ⌊duration * fps⌋) := by
    intro duration fps hd hf
    rw [framesFromDuration, if_pos hd,
      pyIntTrunc_eq_floor _ (le_trans zero_le_one (le_max_left 1 _)), floor_max_one]
  constructor
  · rintro nb p duration fps (hnb | hnb | hnb | hnb) hd hf <;> subst hnb <;>
      simp only [probe_frames] <;> exact hfall duration fps hd hf
  · intro nb p duration fps
    have hdur : framesFromDuration duration fps = none ↔ duration ≤ 0 := by
      rw [framesFromDuration]
      by_cases hd : 0 < duration
      · rw [if_pos hd]
        simp only [reduceCtorEq, false_iff, not_le]
        exact hd
      · rw [if_neg hd]
        simp only [true_iff]
        exact le_of_not_lt hd
    cases nb with
    | none => simp [probe_frames, hdur]
    | some s =>
      by_cases hs : s ≠ "" ∧ s ≠ "N/A" ∧ s ≠ "0"
      · rw [probe_frames, if_pos hs]
        simp only [Option.some_ne_none, false_iff]
        rintro ⟨hh | hh | hh | hh, _⟩ <;> simp at hh <;> simp [hh] at hs
      · rw [probe_frames, if_neg hs]
        rw [hdur]
        constructor
        · intro hd
          refine ⟨?_, hd⟩
          push_neg at hs
          by_cases h1 : s = ""
          · exact Or.inr (Or.inl (by rw [h1]))
          · by_cases h2 : s = "N/A"
            · exact Or.inr (Or.inr (Or.inl (by rw [h2])))
            · exact Or.inr (Or.inr (Or.inr (by rw [hs h1 h2])))
        · rintro ⟨_, hd⟩; exact hd

/-- Witness for C7's amended theorem at duration `1/2`, fps `5`. -/
theorem probe_frames_duration_fallback_witness :
    (0 < (1:ℚ)/2 ∧ 0 ≤ (5:ℚ))
    ∧ probe_frames none (fun _ => 0) (1/2) 5 = some (max 1 ⌊((1:ℚ)/2) * 5⌋) :=
  ⟨⟨by norm_num, by norm_num⟩,
   probe_frames_duration_fallback.1 none (fun _ => 0) (1/2) 5 (Or.inl rfl)
     (by norm_num) (by norm_num)⟩

end Motive2d
